import Mathlib

set_option linter.unnecessarySeqFocus false

/-
  Verification of the MeiliSearch document ranking core
  (`src/rank/ranked_stream.rs`) and of the task store's in-memory
  pending queue (`meilisearch-lib/src/tasks/task_store/mod.rs`),
  via a shallow embedding in Lean 4.

  The embedding keeps the source structure: the stream-collection loop
  becomes a structural recursion over the list of stream entries, the
  `FnvHashMap` keyed by document id becomes an insertion-ordered
  association list, and the in-place group refinement loop over mutable
  slices becomes explicit list surgery driven by a list of group
  lengths (groups are always a contiguous prefix decomposition of the
  document vector, so their lengths determine them).
-/

namespace Meili

/-- A generic comparator-based sort, modelling Rust's `sort_unstable_by`
and `sort_unstable`.  The model fixes a deterministic algorithm
(insertion sort, which is additionally stable); the code's `pdqsort` may
order incomparable ties differently, but every claim settled below is
either independent of tie order or explicitly about this embedding. -/
def insertCmp (le : α → α → Bool) (x : α) : List α → List α
  | [] => [x]
  | y :: ys => if le x y then x :: y :: ys else y :: insertCmp le x ys

/-- Comparator-based insertion sort over a boolean "less or equal". -/
def sortCmp (le : α → α → Bool) : List α → List α
  | [] => []
  | x :: xs => insertCmp le x (sortCmp le xs)

/-- One match record, from `Match` (declared in the library root and used
by `ranked_stream.rs`).  The source's `attribute` field is renamed `attr`
because `attribute` is a Lean keyword; `query_index : u32`,
`distance : u8`, positions `u16`/`u32` are modelled as `Nat` (they are
only constructed, compared and copied here, never wrapped). -/
structure Match where
  query_index : Nat
  distance : Nat
  attr : Nat
  attribute_index : Nat
  is_exact : Bool
deriving DecidableEq, Repr

/-- Modelled from the spec: the canonical total order on `Match`
(its `Ord` derivation lives outside the provided sources) — "primarily
by query index, then distance, then attribute id, then attribute
position". -/
def matchLe (a b : Match) : Bool :=
  if a.query_index ≠ b.query_index then decide (a.query_index < b.query_index)
  else if a.distance ≠ b.distance then decide (a.distance < b.distance)
  else if a.attr ≠ b.attr then decide (a.attr < b.attr)
  else decide (a.attribute_index ≤ b.attribute_index)

/-- One location of an occurrence: `DocIndex { document, attribute,
attribute_index }` from the external index metadata. -/
structure DocIndex where
  document : Nat
  attr : Nat
  attribute_index : Nat
deriving DecidableEq, Repr

/-- One per-automaton record of a stream entry: `IndexedValue { index,
doc_indexes }`, where `index` is the automaton's query index. -/
structure IndexedValue where
  index : Nat
  doc_indexes : List DocIndex
deriving DecidableEq, Repr

/-- A query-term automaton (`DfaExt`), consumed only through
`eval(string).to_u8()` and `query_len()`; both are pure, so it is
modelled as the pair of those two observations. -/
structure Automaton where
  eval : List Char → Nat
  query_len : Nat

/-- One `(string, indexed_values)` pair yielded by the merged stream. -/
abbrev StreamEntry := List Char × List IndexedValue

/-- The ranked document: `Document { id, matches }`.  The source's
`matches` field is renamed `matchList` because `matches` is a Lean
token. -/
structure Document where
  id : Nat
  matchList : List Match
deriving DecidableEq, Repr

/-- The `Match` built at `ranked_stream.rs:67-73` for one occurrence of
`string` under the automaton at query index `qidx`. -/
def mkMatch (qidx distance : Nat) (is_exact : Bool) (di : DocIndex) : Match :=
  { query_index := qidx
    distance := distance
    attr := di.attr
    attribute_index := di.attribute_index
    is_exact := is_exact }

/-- The `(document, Match)` pairs produced by one `IndexedValue` whose
automaton is `a`: distance and exactness are computed once per entry
(`ranked_stream.rs:63-64`) and one match is built per `DocIndex`. -/
def evalMatches (a : Automaton) (s : List Char) (qidx : Nat)
    (dis : List DocIndex) : List (Nat × Match) :=
  let distance := a.eval s
  let is_exact := distance == 0 && s.length == a.query_len
  dis.map (fun di => (di.document, mkMatch qidx distance is_exact di))

/-- The pairs produced by one stream entry, in emission order.  The
automaton lookup `self.automatons[iv.index]` panics when the index is
out of bounds; the model makes that branch `none`. -/
def entryPairs (automatons : List Automaton) (s : List Char) :
    List IndexedValue → Option (List (Nat × Match))
  | [] => some []
  | iv :: rest =>
    match automatons[iv.index]? with
    | none => none
    | some a =>
      match entryPairs automatons s rest with
      | none => none
      | some ps => some (evalMatches a s iv.index iv.doc_indexes ++ ps)

/-- All `(document, Match)` pairs of the whole stream, in the order the
collection loop of `retrieve_documents` inserts them. -/
def streamPairs (automatons : List Automaton) :
    List StreamEntry → Option (List (Nat × Match))
  | [] => some []
  | (s, ivs) :: rest =>
    match entryPairs automatons s ivs, streamPairs automatons rest with
    | some a, some b => some (a ++ b)
    | _, _ => none

/-- `matches.entry(di.document).or_insert_with(Vec::new).push(match_)`:
the hash map keyed by document id is modelled as an association list in
key-insertion order. -/
def insertMatch (d : Nat) (m : Match) :
    List (Nat × List Match) → List (Nat × List Match)
  | [] => [(d, [m])]
  | (k, ms) :: rest =>
    if k = d then (k, ms ++ [m]) :: rest else (k, ms) :: insertMatch d m rest

/-- Folding all pairs into the map, in stream order. -/
def collectPairs (ps : List (Nat × Match)) (acc : List (Nat × List Match)) :
    List (Nat × List Match) :=
  ps.foldl (fun acc p => insertMatch p.1 p.2 acc) acc

/-- The match-collection phase of `retrieve_documents`
(`ranked_stream.rs:58-77`): drain the whole stream into the per-document
map.  `none` models the out-of-bounds automaton lookup panic. -/
def collectMatches (automatons : List Automaton) (stream : List StreamEntry) :
    Option (List (Nat × List Match)) :=
  (streamPairs automatons stream).map (fun ps => collectPairs ps [])

/-- Association-list lookup, for stating the map's contract. -/
def lookupAssoc (d : Nat) : List (Nat × List Match) → Option (List Match)
  | [] => none
  | (k, v) :: rest => if k = d then some v else lookupAssoc d rest

/-- The document assembly of `ranked_stream.rs:80-83`: each bag is
sorted (`matches.sort_unstable()`, i.e. by the canonical `Match` order)
and a `Document` is built from the already-sorted list
(`Document::from_sorted_matches`). -/
def assemble (m : List (Nat × List Match)) : List Document :=
  m.map (fun p => { id := p.1, matchList := sortCmp matchLe p.2 })

/-- The caller's half-open window, `Range { start, end }` (`end` is a
Lean keyword, renamed `stop`). -/
structure Rng where
  start : Nat
  stop : Nat
deriving DecidableEq, Repr

/-- `Range::contains` on `usize`: `start <= x && x < end`. -/
def rngContains (r : Rng) (x : Nat) : Bool :=
  decide (r.start ≤ x) && decide (x < r.stop)

/-- Two half-open windows intersect (used to state the spec's
"group overlaps the requested Range"). -/
def rngOverlaps (a b : Rng) : Bool :=
  decide (a.start < b.stop) && decide (b.start < a.stop)

/-- A ranking criterion: `evaluate` and `eq` from the `Criterion`
trait, both pure functions of the two documents. -/
structure Criterion where
  evaluate : Document → Document → Ordering
  eq : Document → Document → Bool

/-- The boolean "less or equal" induced by a three-way comparator, as
used by `sort_unstable_by(|a, b| criterion.evaluate(a, b))`. -/
def cmpLe (cmp : α → α → Ordering) (a b : α) : Bool :=
  match cmp a b with
  | Ordering.gt => false
  | _ => true

/-- `GroupByMut::new(group, |a, b| criterion.eq(a, b))`: maximal runs of
consecutive elements related by the predicate. -/
def groupRuns (eqf : α → α → Bool) : List α → List (List α)
  | [] => []
  | [x] => [[x]]
  | x :: y :: rest =>
    match groupRuns eqf (y :: rest) with
    | [] => [[x]]
    | g :: gs => if eqf x y then (x :: g) :: gs else [x] :: g :: gs

/-- One pass of the criterion loop of `retrieve_documents`
(`ranked_stream.rs:91-107`).  The group sequence is a contiguous prefix
decomposition of the document vector, represented by its list of
lengths; `pos` is `current_range.start` (the cumulative start of the
first remaining group) and `docs` is the part of the document vector
from `pos` on.  Returns the updated document suffix, the output group
lengths, and the lengths of the slices passed to `sort_unstable_by`
(the instrumentation for comparator work: a sort of a slice of length
`>= 2` invokes the comparator, a sort of a shorter slice cannot).

Per group: `current_range.end += group.len()`; if
`current_range.contains(&range.start)` the group is sorted in place and
its equivalence runs are pushed — but after the first pushed run, if
`current_range.end >= range.end` the whole criterion loop breaks
(`break 'grp`), leaving every remaining document segment in place and
ungrouped; otherwise the group is pushed unchanged. -/
def applyCriterion (c : Criterion) (r : Rng) :
    Nat → List Nat → List Document → List Document × List Nat × List Nat
  | _, [], docs => (docs, [], [])
  | pos, len :: rest, docs =>
    let seg := docs.take len
    let tail := docs.drop len
    if rngContains ⟨pos, pos + len⟩ r.start then
      let sorted := sortCmp (cmpLe c.evaluate) seg
      let subs := groupRuns c.eq sorted
      if pos + len ≥ r.stop then
        (sorted ++ tail, [(subs.headD []).length], [len])
      else
        let res := applyCriterion c r (pos + len) rest tail
        (sorted ++ res.1, subs.map List.length ++ res.2.1, len :: res.2.2)
    else
      let res := applyCriterion c r (pos + len) rest tail
      (seg ++ res.1, len :: res.2.1, res.2.2)

/-- The criterion loop (`for criterion in self.criteria`), threading the
document vector and the group decomposition through the passes and
accumulating the sorted-slice lengths. -/
def rankLoop (r : Rng) :
    List Criterion → List Document → List Nat →
      List Document × List Nat × List Nat
  | [], docs, lens => (docs, lens, [])
  | c :: cs, docs, lens =>
    let p := applyCriterion c r 0 lens docs
    let q := rankLoop r cs p.1 p.2.1
    (q.1, q.2.1, p.2.2 ++ q.2.2)

/-- The document vector after all criterion passes, starting from the
single group `vec![documents.as_mut_slice()]`. -/
def rankedDocuments (criteria : List Criterion) (r : Rng)
    (docs : List Document) : List Document :=
  (rankLoop r criteria docs [docs.length]).1

/-- Lengths of all slices sorted during ranking, in order. -/
def sortCallLens (criteria : List Criterion) (r : Rng)
    (docs : List Document) : List Nat :=
  (rankLoop r criteria docs [docs.length]).2.2

/-- The window extraction of `ranked_stream.rs:112-115`:
`start = min(range.start, documents.len())`, `split_off(start)`,
`truncate(range.len())`.  (`Range::<usize>::len()` is `end - start`,
which is truncated subtraction exactly as `Nat` subtraction is.) -/
def retrieveFrom (criteria : List Criterion) (r : Rng)
    (docs : List Document) : List Document :=
  let d := rankedDocuments criteria r docs
  let start := min r.start d.length
  (d.drop start).take (r.stop - r.start)

/-- The whole of `retrieve_documents`: drain the stream into the match
map, assemble one document per id, rank, slice.  `none` models the
out-of-bounds automaton lookup panic in the collection loop. -/
def retrieve_documents (automatons : List Automaton)
    (criteria : List Criterion) (stream : List StreamEntry) (r : Rng) :
    Option (List Document) :=
  (collectMatches automatons stream).map
    (fun m => retrieveFrom criteria r (assemble m))

/-- Slicing used on the specification side: clamp the start to the
document count, take at most `stop - start` elements. -/
def sliceClamped (r : Rng) (docs : List Document) : List Document :=
  (docs.drop (min r.start docs.length)).take (r.stop - r.start)

/-- Specification-side full multi-key sort: stable-sort by the least
significant criterion first, ending with the most significant, so the
primary criterion dominates and its ties are broken by the next
criterion (the classic radix argument; `sortCmp` is stable). -/
def sortFully (criteria : List Criterion) (docs : List Document) :
    List Document :=
  criteria.foldr (fun c d => sortCmp (cmpLe c.evaluate) d) docs

/-- The cumulative index interval of the `i`-th group of a pass whose
first group starts at position `pos`. -/
def spanAt (pos : Nat) (lens : List Nat) (i : Nat) : Rng :=
  ⟨pos + (lens.take i).sum, pos + (lens.take i).sum + lens.getD i 0⟩

/-- The matches of document `d` among the flat `(document, Match)`
pairs of the stream, in stream order — the specification-side
description of one document's evidence bag. -/
def filterPairs (d : Nat) (ps : List (Nat × Match)) : List Match :=
  (ps.filter (fun q => q.1 == d)).map Prod.snd

/-- How one insertion batch extends an optional existing bag (used to
state the accumulator invariant of `collectPairs`). -/
def combineOpt (o : Option (List Match)) (ms : List Match) :
    Option (List Match) :=
  match o with
  | none => if ms.isEmpty then none else some ms
  | some old => some (old ++ ms)

/-! Concrete inputs used by witnesses and counterexamples. -/

/-- A criterion ranking by a two-bucket key of the document id:
id 0 ranks before all others, which tie. -/
def exCrit1 : Criterion :=
  { evaluate := fun a b =>
      compare (if a.id = 0 then 0 else 1) (if b.id = 0 then 0 else 1)
    eq := fun a b =>
      (if a.id = 0 then (0 : Nat) else 1) == (if b.id = 0 then 0 else 1) }

/-- A criterion ranking id 1 after ids 0 and 2, which tie. -/
def exCrit2 : Criterion :=
  { evaluate := fun a b =>
      compare (if a.id = 1 then 1 else 0) (if b.id = 1 then 1 else 0)
    eq := fun a b =>
      (if a.id = 1 then (1 : Nat) else 0) == (if b.id = 1 then 1 else 0) }

/-- A criterion ranking documents by their id. -/
def exCritId : Criterion :=
  { evaluate := fun a b => compare a.id b.id
    eq := fun a b => a.id == b.id }

def exD0 : Document := ⟨0, []⟩
def exD1 : Document := ⟨1, []⟩
def exD2 : Document := ⟨2, []⟩

/-- An automaton whose evaluation always reports distance 0, for a
query term of length 2. -/
def exAuto : Automaton := ⟨fun _ => 0, 2⟩

def exDocIndex : DocIndex := ⟨7, 2, 3⟩

/-- A one-entry stream: the string "a" matched automaton 0 at one
location of document 7. -/
def exStream : List StreamEntry := [(['a'], [⟨0, [exDocIndex]⟩])]

/-- Two matches, in decreasing canonical order when listed as
`[exMatchB, exMatchA]`. -/
def exMatchA : Match := ⟨0, 0, 0, 0, false⟩

def exMatchB : Match := ⟨1, 0, 0, 0, false⟩

namespace TaskStore

/-- `TaskId` is `u64`; the queue only compares and stores ids (no
arithmetic), so `Nat` models it. -/
abbrev TaskId := Nat

/-- The in-memory pending queue `BinaryHeap<Reverse<TaskId>>`, modelled
by its multiset of elements as a list (the heap's array layout is not
observable through `peek`/`drain`/`collect`). -/
abbrev PendingQueue := List TaskId

/-- `TaskStore::delete_tasks`: `drain().filter(|id|
!to_remove.contains(&id.0)).collect()` — rebuild the queue from the
pending ids not in `to_remove`.  The `HashSet<TaskId>` argument is
modelled as a list queried by membership. -/
def delete_tasks (to_remove : List TaskId) (q : PendingQueue) : PendingQueue :=
  q.filter (fun id => !to_remove.contains id)

/-- `TaskStore::peek_pending`: `pending_queue.peek().map(|rid| rid.0)` —
the top of a max-heap of `Reverse<TaskId>` is the least pending id. -/
def peek_pending (q : PendingQueue) : Option TaskId :=
  q.min?

end TaskStore

/-! Auxiliary lemmas. -/

theorem length_insertCmp (le : α → α → Bool) (x : α) (l : List α) :
    (insertCmp le x l).length = l.length + 1 := by
  induction l with
  | nil => rfl
  | cons y ys ih =>
    simp only [insertCmp]
    split <;> simp [ih]

theorem length_sortCmp (le : α → α → Bool) (l : List α) :
    (sortCmp le l).length = l.length := by
  induction l with
  | nil => rfl
  | cons x xs ih => simp [sortCmp, length_insertCmp, ih]

theorem perm_insertCmp (le : α → α → Bool) (x : α) (l : List α) :
    List.Perm (insertCmp le x l) (x :: l) := by
  induction l with
  | nil => rfl
  | cons y ys ih =>
    simp only [insertCmp]
    split
    · rfl
    · exact ((ih.cons y).trans (List.Perm.swap x y ys))

theorem perm_sortCmp (le : α → α → Bool) (l : List α) :
    List.Perm (sortCmp le l) l := by
  induction l with
  | nil => rfl
  | cons x xs ih => exact (perm_insertCmp le x (sortCmp le xs)).trans (ih.cons x)

theorem pairwise_insertCmp (le : α → α → Bool)
    (htot : ∀ a b, le a b = true ∨ le b a = true)
    (htrans : ∀ a b c, le a b = true → le b c = true → le a c = true)
    (x : α) (l : List α) (hl : l.Pairwise (fun a b => le a b = true)) :
    (insertCmp le x l).Pairwise (fun a b => le a b = true) := by
  induction l with
  | nil => simp [insertCmp]
  | cons y ys ih =>
    rcases List.pairwise_cons.mp hl with ⟨hy, hys⟩
    simp only [insertCmp]
    split
    · rename_i hxy
      refine List.pairwise_cons.mpr ⟨?_, hl⟩
      intro b hb
      rcases List.mem_cons.mp hb with rfl | hb
      · exact hxy
      · exact htrans x y b hxy (hy b hb)
    · rename_i hxy
      have hyx : le y x = true := by
        rcases htot x y with h | h
        · exact absurd h hxy
        · exact h
      refine List.pairwise_cons.mpr ⟨?_, ih hys⟩
      intro b hb
      have : b = x ∨ b ∈ ys := (perm_insertCmp le x ys).mem_iff.mp hb |> List.mem_cons.mp
      rcases this with rfl | hb
      · exact hyx
      · exact hy b hb

theorem pairwise_sortCmp (le : α → α → Bool)
    (htot : ∀ a b, le a b = true ∨ le b a = true)
    (htrans : ∀ a b c, le a b = true → le b c = true → le a c = true)
    (l : List α) :
    (sortCmp le l).Pairwise (fun a b => le a b = true) := by
  induction l with
  | nil => simp [sortCmp]
  | cons x xs ih => exact pairwise_insertCmp le htot htrans x (sortCmp le xs) ih

theorem sortCmp_of_le_true (le : α → α → Bool) (h : ∀ a b, le a b = true)
    (l : List α) : sortCmp le l = l := by
  induction l with
  | nil => rfl
  | cons x xs ih =>
    simp only [sortCmp, ih]
    cases xs with
    | nil => rfl
    | cons y ys => simp [insertCmp, h x y]

theorem matchLe_total (a b : Match) : matchLe a b = true ∨ matchLe b a = true := by
  unfold matchLe
  split_ifs <;> simp_all <;> omega

theorem matchLe_trans (a b c : Match)
    (hab : matchLe a b = true) (hbc : matchLe b c = true) :
    matchLe a c = true := by
  unfold matchLe at *
  split_ifs at * <;> simp_all <;> omega

/- Branch equations for `applyCriterion`. -/

theorem applyCriterion_nil (c : Criterion) (r : Rng) (pos : Nat)
    (docs : List Document) : applyCriterion c r pos [] docs = (docs, [], []) :=
  rfl

theorem applyCriterion_cons_out (c : Criterion) (r : Rng) (pos len : Nat)
    (rest : List Nat) (docs : List Document)
    (h : rngContains ⟨pos, pos + len⟩ r.start = false) :
    applyCriterion c r pos (len :: rest) docs =
      (docs.take len ++ (applyCriterion c r (pos + len) rest (docs.drop len)).1,
       len :: (applyCriterion c r (pos + len) rest (docs.drop len)).2.1,
       (applyCriterion c r (pos + len) rest (docs.drop len)).2.2) := by
  simp only [applyCriterion, h]
  rfl

theorem applyCriterion_cons_last (c : Criterion) (r : Rng) (pos len : Nat)
    (rest : List Nat) (docs : List Document)
    (h : rngContains ⟨pos, pos + len⟩ r.start = true) (hb : pos + len ≥ r.stop) :
    applyCriterion c r pos (len :: rest) docs =
      (sortCmp (cmpLe c.evaluate) (docs.take len) ++ docs.drop len,
       [((groupRuns c.eq (sortCmp (cmpLe c.evaluate) (docs.take len))).headD []).length],
       [len]) := by
  simp only [applyCriterion, h, if_pos hb]
  rfl

theorem applyCriterion_cons_sort (c : Criterion) (r : Rng) (pos len : Nat)
    (rest : List Nat) (docs : List Document)
    (h : rngContains ⟨pos, pos + len⟩ r.start = true) (hb : ¬ pos + len ≥ r.stop) :
    applyCriterion c r pos (len :: rest) docs =
      (sortCmp (cmpLe c.evaluate) (docs.take len)
         ++ (applyCriterion c r (pos + len) rest (docs.drop len)).1,
       (groupRuns c.eq (sortCmp (cmpLe c.evaluate) (docs.take len))).map List.length
         ++ (applyCriterion c r (pos + len) rest (docs.drop len)).2.1,
       len :: (applyCriterion c r (pos + len) rest (docs.drop len)).2.2) := by
  simp only [applyCriterion, h, if_neg hb]
  rfl

/-- Every pass permutes the document vector: each group is either left
in place or replaced by a sort of itself. -/
theorem applyCriterion_perm (c : Criterion) (r : Rng) :
    ∀ (lens : List Nat) (pos : Nat) (docs : List Document),
      List.Perm (applyCriterion c r pos lens docs).1 docs := by
  intro lens
  induction lens with
  | nil => intro pos docs; exact List.Perm.refl _
  | cons len rest ih =>
    intro pos docs
    by_cases h : rngContains ⟨pos, pos + len⟩ r.start = true
    · by_cases hb : pos + len ≥ r.stop
      · rw [applyCriterion_cons_last c r pos len rest docs h hb]
        have hp := (perm_sortCmp (cmpLe c.evaluate) (docs.take len)).append_right
          (docs.drop len)
        rwa [docs.take_append_drop len] at hp
      · rw [applyCriterion_cons_sort c r pos len rest docs h hb]
        have hp := (perm_sortCmp (cmpLe c.evaluate) (docs.take len)).append
          (ih (pos + len) (docs.drop len))
        rwa [docs.take_append_drop len] at hp
    · rw [applyCriterion_cons_out c r pos len rest docs (by simpa using h)]
      have hp := (List.Perm.refl (docs.take len)).append
        (ih (pos + len) (docs.drop len))
      rwa [docs.take_append_drop len] at hp

/-- The whole criterion loop permutes the document vector. -/
theorem rankLoop_perm (r : Rng) :
    ∀ (criteria : List Criterion) (docs : List Document) (lens : List Nat),
      List.Perm (rankLoop r criteria docs lens).1 docs := by
  intro criteria
  induction criteria with
  | nil => intro docs lens; exact List.Perm.refl _
  | cons c cs ih =>
    intro docs lens
    exact (ih _ _).trans (applyCriterion_perm c r lens 0 docs)

theorem rankedDocuments_perm (criteria : List Criterion) (r : Rng)
    (docs : List Document) :
    List.Perm (rankedDocuments criteria r docs) docs :=
  rankLoop_perm r criteria docs [docs.length]

theorem rankedDocuments_length (criteria : List Criterion) (r : Rng)
    (docs : List Document) :
    (rankedDocuments criteria r docs).length = docs.length :=
  (rankedDocuments_perm criteria r docs).length_eq


theorem entryPairs_isSome (automatons : List Automaton) (s : List Char) :
    ∀ ivs : List IndexedValue,
      (∀ iv ∈ ivs, iv.index < automatons.length) →
      (entryPairs automatons s ivs).isSome := by
  intro ivs
  induction ivs with
  | nil => intro _; rfl
  | cons iv rest ih =>
    intro h
    have h1 : iv.index < automatons.length := h iv (List.mem_cons_self iv rest)
    have h2 := ih (fun x hx => h x (List.mem_cons_of_mem iv hx))
    obtain ⟨ps, hps⟩ := Option.isSome_iff_exists.mp h2
    simp only [entryPairs, List.getElem?_eq_getElem h1, hps]
    rfl

theorem streamPairs_isSome (automatons : List Automaton) :
    ∀ stream : List StreamEntry,
      (∀ e ∈ stream, ∀ iv ∈ e.2, iv.index < automatons.length) →
      (streamPairs automatons stream).isSome := by
  intro stream
  induction stream with
  | nil => intro _; rfl
  | cons e rest ih =>
    intro h
    obtain ⟨s, ivs⟩ := e
    have h1 := entryPairs_isSome automatons s ivs
      (h (s, ivs) (List.mem_cons_self _ rest))
    have h2 := ih (fun x hx => h x (List.mem_cons_of_mem _ hx))
    obtain ⟨a, ha⟩ := Option.isSome_iff_exists.mp h1
    obtain ⟨b, hb⟩ := Option.isSome_iff_exists.mp h2
    simp only [streamPairs, ha, hb]
    rfl

/-- A pass whose whole cumulative interval lies at or before the
requested start leaves documents, groups and sort instrumentation
untouched: no group can contain `range.start`. -/
theorem applyCriterion_out_of_reach (c : Criterion) (r : Rng) :
    ∀ (lens : List Nat) (pos : Nat) (docs : List Document),
      pos + lens.sum ≤ r.start →
      applyCriterion c r pos lens docs = (docs, lens, []) := by
  intro lens
  induction lens with
  | nil => intro pos docs _; rfl
  | cons len rest ih =>
    intro pos docs h
    simp only [List.sum_cons] at h
    have hc : rngContains ⟨pos, pos + len⟩ r.start = false := by
      simp only [rngContains, Bool.and_eq_false_iff, decide_eq_false_iff_not]
      right; omega
    rw [applyCriterion_cons_out c r pos len rest docs hc,
      ih (pos + len) (docs.drop len) (by omega)]
    simp [List.take_append_drop]

/-- When the document count is at or before the requested start, the
whole criterion loop is the identity and sorts nothing. -/
theorem rankLoop_out_of_reach (r : Rng) :
    ∀ (criteria : List Criterion) (docs : List Document) (lens : List Nat),
      lens.sum ≤ r.start →
      rankLoop r criteria docs lens = (docs, lens, []) := by
  intro criteria
  induction criteria with
  | nil => intro docs lens _; rfl
  | cons c cs ih =>
    intro docs lens h
    simp only [rankLoop]
    rw [applyCriterion_out_of_reach c r lens 0 docs (by omega)]
    rw [ih docs lens h]
    rfl

/-- C7 counterexample: with one criterion, two documents and the empty
range `[0, 0)`, the initial group contains position 0, so it is sorted:
the result is empty as claimed, but a slice of length 2 is passed to
`sort_unstable_by` (at least one comparator call) and the document
order does change. -/
theorem claim_C7_counterexample :
    retrieveFrom [exCritId] ⟨0, 0⟩ [exD1, exD0] = []
    ∧ sortCallLens [exCritId] ⟨0, 0⟩ [exD1, exD0] = [2]
    ∧ rankedDocuments [exCritId] ⟨0, 0⟩ [exD1, exD0] ≠ [exD1, exD0] := by
  decide

/-- C7 (amended): a range with `start == end` yields the empty result;
but the group containing index `start` is still sorted — no sorting
happens only when `start` is at or beyond the document count. -/
theorem claim_C7 (criteria : List Criterion) (r : Rng) (docs : List Document)
    (h : r.start = r.stop) :
    retrieveFrom criteria r docs = []
    ∧ (docs.length ≤ r.start → sortCallLens criteria r docs = []) := by
  constructor
  · have h0 : r.stop - r.start = 0 := by omega
    simp [retrieveFrom, h0]
  · intro hlen
    rw [sortCallLens,
      rankLoop_out_of_reach r criteria docs [docs.length] (by simp [hlen])]

/-- C7 witness: the empty range `[2, 2)` beyond both documents gives an
empty result and no sort calls. -/
theorem claim_C7_witness :
    retrieveFrom [exCritId] ⟨2, 2⟩ [exD1, exD0] = []
    ∧ ([exD1, exD0].length ≤ 2 → sortCallLens [exCritId] ⟨2, 2⟩ [exD1, exD0] = []) :=
  claim_C7 [exCritId] ⟨2, 2⟩ [exD1, exD0] rfl

/-- C1 counterexample: two criteria, three documents, full range
`[0, 3)`.  The first pass sorts everything by criterion 1 and — because
`current_range.end >= range.end` already holds — keeps only the first
equivalence run as a group, so criterion 2 is never applied to the
second run: the lazy result differs from the full multi-key sort. -/
theorem claim_C1_counterexample :
    retrieveFrom [exCrit1, exCrit2] ⟨0, 3⟩ [exD0, exD1, exD2]
      ≠ sliceClamped ⟨0, 3⟩ (sortFully [exCrit1, exCrit2] [exD0, exD1, exD2]) := by
  decide

/-- C1 (amended): the lazy algorithm is observationally equal to the
full multi-key sort followed by clamped slicing whenever the criteria
list has at most one element (with two or more criteria it differs, see
the counterexample). -/
theorem claim_C1 (criteria : List Criterion) (r : Rng) (docs : List Document)
    (hc : criteria.length ≤ 1) :
    retrieveFrom criteria r docs = sliceClamped r (sortFully criteria docs) := by
  cases criteria with
  | nil => rfl
  | cons c cs =>
    cases cs with
    | cons c2 cs2 => simp at hc
    | nil =>
      have hranked : rankedDocuments [c] r docs
          = (applyCriterion c r 0 [docs.length] docs).1 := by
        simp [rankedDocuments, rankLoop]
      have hsf : sortFully [c] docs = sortCmp (cmpLe c.evaluate) docs := rfl
      by_cases hlt : r.start < docs.length
      · have hcont : rngContains ⟨0, 0 + docs.length⟩ r.start = true := by
          simp only [rngContains, Bool.and_eq_true, decide_eq_true_eq]
          omega
        have happ : (applyCriterion c r 0 [docs.length] docs).1
            = sortCmp (cmpLe c.evaluate) docs := by
          by_cases hb : 0 + docs.length ≥ r.stop
          · rw [applyCriterion_cons_last c r 0 docs.length [] docs hcont hb]
            simp
          · rw [applyCriterion_cons_sort c r 0 docs.length [] docs hcont hb]
            simp [applyCriterion_nil]
        simp only [retrieveFrom, hranked, happ, hsf, sliceClamped,
          length_sortCmp]
      · have hcont : rngContains ⟨0, 0 + docs.length⟩ r.start = false := by
          simp only [rngContains, Bool.and_eq_false_iff,
            decide_eq_false_iff_not]
          right; omega
        have happ : (applyCriterion c r 0 [docs.length] docs).1 = docs := by
          rw [applyCriterion_cons_out c r 0 docs.length [] docs hcont]
          simp [applyCriterion_nil]
        have hmin : min r.start docs.length = docs.length := by omega
        have hdrop : List.drop docs.length (sortCmp (cmpLe c.evaluate) docs)
            = [] := by
          rw [← length_sortCmp (cmpLe c.evaluate) docs]
          exact List.drop_length _
        simp only [retrieveFrom, hranked, happ, hsf, sliceClamped,
          length_sortCmp, hmin, hdrop, List.drop_length, List.take_nil]

/-- C1 witness: one criterion ranking by id over three unsorted
documents and window `[1, 3)` — the lazy result equals the slice of the
full sort. -/
theorem claim_C1_witness :
    retrieveFrom [exCritId] ⟨1, 3⟩ [exD2, exD0, exD1]
      = sliceClamped ⟨1, 3⟩ (sortFully [exCritId] [exD2, exD0, exD1]) :=
  claim_C1 [exCritId] ⟨1, 3⟩ [exD2, exD0, exD1] (by decide)

/-- C8: with an empty criteria list the criterion loop never runs, so
`retrieve_documents` returns the assembled documents in their original
sequence order, clamped to the requested range — a defined result, not
a failure. -/
theorem claim_C8 (automatons : List Automaton) (stream : List StreamEntry)
    (r : Rng) :
    retrieve_documents automatons [] stream r
      = (collectMatches automatons stream).map
          (fun m => sliceClamped r (assemble m)) :=
  rfl

/-- C6: `retrieve_documents` never fails on any range with
`start <= end`: the effective start is clamped to
`min(start, documents.len())`, the returned slice has at most
`end - start` elements, and a start at or beyond the document count
yields the empty sequence. -/
theorem claim_C6 (criteria : List Criterion) (r : Rng) (docs : List Document)
    (_hr : r.start ≤ r.stop) :
    retrieveFrom criteria r docs
        = ((rankedDocuments criteria r docs).drop
            (min r.start docs.length)).take (r.stop - r.start)
      ∧ (retrieveFrom criteria r docs).length ≤ r.stop - r.start
      ∧ (docs.length ≤ r.start → retrieveFrom criteria r docs = []) := by
  have hlen := rankedDocuments_length criteria r docs
  refine ⟨by rw [retrieveFrom, hlen], List.length_take_le _ _, fun h => ?_⟩
  have hmin : min r.start (rankedDocuments criteria r docs).length
      = (rankedDocuments criteria r docs).length := by
    rw [hlen]; omega
  rw [retrieveFrom, hmin, List.drop_length, List.take_nil]

/-- C6 witness: a two-element range entirely beyond a one-document
sequence gives the empty result. -/
theorem claim_C6_witness :
    retrieveFrom [exCritId] ⟨3, 5⟩ [exD0]
        = ((rankedDocuments [exCritId] ⟨3, 5⟩ [exD0]).drop
            (min 3 1)).take (5 - 3)
      ∧ (retrieveFrom [exCritId] ⟨3, 5⟩ [exD0]).length ≤ 5 - 3
      ∧ (1 ≤ 3 → retrieveFrom [exCritId] ⟨3, 5⟩ [exD0] = []) :=
  claim_C6 [exCritId] ⟨3, 5⟩ [exD0] (by decide)

/-- C4: a constructed match is exact exactly when the automaton reports
distance 0 and the matched string's length equals the query term's
length, as computed at `ranked_stream.rs:63-64`. -/
theorem claim_C4 (a : Automaton) (s : List Char) (qidx : Nat)
    (dis : List DocIndex) :
    ∀ p ∈ evalMatches a s qidx dis,
      (p.2.is_exact = true ↔ (a.eval s = 0 ∧ s.length = a.query_len)) := by
  intro p hp
  simp only [evalMatches, List.mem_map] at hp
  obtain ⟨di, _, rfl⟩ := hp
  simp [mkMatch, Bool.and_eq_true]

/-- C4 witness: distance 0 on a string of length 1 against a query of
length 2 — the match is not exact, matching the right-hand side. -/
theorem claim_C4_witness :
    (((7 : Nat), mkMatch 0 0 false exDocIndex)).2.is_exact = true
      ↔ (exAuto.eval ['a'] = 0 ∧ (['a'] : List Char).length = exAuto.query_len) :=
  claim_C4 exAuto ['a'] 0 [exDocIndex] (7, mkMatch 0 0 false exDocIndex)
    (by decide)

/-- C9: when every query index produced by the stream is within the
automaton set, the collection loop is total — the indexing
`self.automatons[iv.index]` (modelled as the `none` branch) is never
reached. -/
theorem claim_C9 (automatons : List Automaton) (stream : List StreamEntry)
    (h : ∀ e ∈ stream, ∀ iv ∈ e.2, iv.index < automatons.length) :
    (collectMatches automatons stream).isSome := by
  rw [collectMatches]
  obtain ⟨ps, hps⟩ :=
    Option.isSome_iff_exists.mp (streamPairs_isSome automatons stream h)
  rw [hps]
  rfl

/-- C9 witness: the one-entry example stream is in bounds for the
one-automaton set, and collection succeeds on it. -/
theorem claim_C9_witness : (collectMatches [exAuto] exStream).isSome :=
  claim_C9 [exAuto] exStream (by decide)

/-- Elements of the returned window are elements of the input document
sequence (documents are reordered as elements, never rebuilt). -/
theorem mem_retrieveFrom (criteria : List Criterion) (r : Rng)
    (docs : List Document) (doc : Document)
    (h : doc ∈ retrieveFrom criteria r docs) : doc ∈ docs := by
  simp only [retrieveFrom] at h
  exact (rankedDocuments_perm criteria r docs).mem_iff.mp
    (List.mem_of_mem_drop (List.mem_of_mem_take h))

/-- C3: every document reaching the caller has its match list
non-decreasing under the canonical Match order — the sortedness is
established by the assembler's sort (`matches.sort_unstable()`) right
before `Document::from_sorted_matches`, and ranking only permutes
documents as elements, never their match lists. -/
theorem claim_C3 (m : List (Nat × List Match)) (criteria : List Criterion)
    (r : Rng) :
    ∀ doc ∈ retrieveFrom criteria r (assemble m),
      doc.matchList.Pairwise (fun a b => matchLe a b = true) := by
  intro doc hdoc
  have hmem : doc ∈ assemble m :=
    mem_retrieveFrom criteria r (assemble m) doc hdoc
  simp only [assemble, List.mem_map] at hmem
  obtain ⟨p, _, rfl⟩ := hmem
  exact pairwise_sortCmp matchLe matchLe_total matchLe_trans p.2

/-- C3 witness: document 3 assembled from the unsorted bag
`[exMatchB, exMatchA]` comes out with the sorted list
`[exMatchA, exMatchB]`, which is pairwise non-decreasing. -/
theorem claim_C3_witness :
    (Document.mk 3 [exMatchA, exMatchB]).matchList.Pairwise
      (fun a b => matchLe a b = true) :=
  claim_C3 [(3, [exMatchB, exMatchA])] [] ⟨0, 1⟩
    (Document.mk 3 [exMatchA, exMatchB]) (by decide)

/-! Accumulator invariants of the match map. -/

theorem lookupAssoc_insertMatch_self (dk : Nat) (m : Match) :
    ∀ acc, lookupAssoc dk (insertMatch dk m acc)
      = some (((lookupAssoc dk acc).getD []) ++ [m]) := by
  intro acc
  induction acc with
  | nil => simp [insertMatch, lookupAssoc]
  | cons kv rest ih =>
    obtain ⟨k, ms⟩ := kv
    by_cases hk : k = dk
    · subst hk
      simp [insertMatch, lookupAssoc]
    · simp [insertMatch, hk, lookupAssoc, ih]

theorem lookupAssoc_insertMatch_other (d dk : Nat) (m : Match) (hd : d ≠ dk) :
    ∀ acc, lookupAssoc d (insertMatch dk m acc) = lookupAssoc d acc := by
  intro acc
  induction acc with
  | nil => simp [insertMatch, lookupAssoc, Ne.symm hd]
  | cons kv rest ih =>
    obtain ⟨k, ms⟩ := kv
    by_cases hk : k = dk
    · subst hk
      have : ¬ k = d := fun h => hd h.symm
      simp [insertMatch, lookupAssoc, this]
    · by_cases hkd : k = d
      · subst hkd
        simp [insertMatch, hk, lookupAssoc]
      · simp [insertMatch, hk, lookupAssoc, hkd, ih]

theorem keys_insertMatch (dk : Nat) (m : Match) :
    ∀ acc : List (Nat × List Match),
      (insertMatch dk m acc).map Prod.fst
        = if dk ∈ acc.map Prod.fst then acc.map Prod.fst
          else acc.map Prod.fst ++ [dk] := by
  intro acc
  induction acc with
  | nil => simp [insertMatch]
  | cons kv rest ih =>
    obtain ⟨k, ms⟩ := kv
    by_cases hk : k = dk
    · subst hk
      simp [insertMatch]
    · simp only [insertMatch, if_neg hk, List.map_cons, ih]
      by_cases hmem : dk ∈ rest.map Prod.fst
      · simp [hmem, Ne.symm hk]
      · simp [hmem, Ne.symm hk]

theorem mem_keys_insertMatch (d dk : Nat) (m : Match)
    (acc : List (Nat × List Match)) :
    d ∈ (insertMatch dk m acc).map Prod.fst
      ↔ (d ∈ acc.map Prod.fst ∨ d = dk) := by
  rw [keys_insertMatch]
  split
  · rename_i hmem
    constructor
    · exact Or.inl
    · rintro (h | rfl)
      · exact h
      · exact hmem
  · simp

theorem nodup_keys_insertMatch (dk : Nat) (m : Match)
    (acc : List (Nat × List Match)) (h : (acc.map Prod.fst).Nodup) :
    ((insertMatch dk m acc).map Prod.fst).Nodup := by
  rw [keys_insertMatch]
  split
  · exact h
  · rename_i hmem
    simp [List.nodup_append, h, hmem, List.disjoint_singleton]

theorem lookupAssoc_collectPairs (d : Nat) :
    ∀ (ps : List (Nat × Match)) (acc : List (Nat × List Match)),
      lookupAssoc d (collectPairs ps acc)
        = combineOpt (lookupAssoc d acc) (filterPairs d ps) := by
  intro ps
  induction ps with
  | nil =>
    intro acc
    cases h : lookupAssoc d acc <;>
      simp [collectPairs, filterPairs, combineOpt, h]
  | cons p ps ih =>
    intro acc
    have hstep : collectPairs (p :: ps) acc
        = collectPairs ps (insertMatch p.1 p.2 acc) := rfl
    rw [hstep, ih]
    by_cases hd : d = p.1
    · subst hd
      have hfil : filterPairs p.1 (p :: ps) = p.2 :: filterPairs p.1 ps := by
        simp [filterPairs, List.filter_cons]
      rw [lookupAssoc_insertMatch_self p.1 p.2 acc, hfil]
      cases h : lookupAssoc p.1 acc <;> simp [combineOpt, h]
    · have hfil : filterPairs d (p :: ps) = filterPairs d ps := by
        have : (p.1 == d) = false := by
          simp [Ne.symm hd]
        simp [filterPairs, List.filter_cons, this]
      rw [lookupAssoc_insertMatch_other d p.1 p.2 hd acc, hfil]

theorem nodup_keys_collectPairs :
    ∀ (ps : List (Nat × Match)) (acc : List (Nat × List Match)),
      (acc.map Prod.fst).Nodup → ((collectPairs ps acc).map Prod.fst).Nodup := by
  intro ps
  induction ps with
  | nil => intro acc h; exact h
  | cons p ps ih =>
    intro acc h
    exact ih (insertMatch p.1 p.2 acc) (nodup_keys_insertMatch p.1 p.2 acc h)

theorem mem_keys_collectPairs (d : Nat) :
    ∀ (ps : List (Nat × Match)) (acc : List (Nat × List Match)),
      d ∈ (collectPairs ps acc).map Prod.fst
        ↔ (d ∈ acc.map Prod.fst ∨ d ∈ ps.map Prod.fst) := by
  intro ps
  induction ps with
  | nil => intro acc; simp [collectPairs]
  | cons p ps ih =>
    intro acc
    have hstep : collectPairs (p :: ps) acc
        = collectPairs ps (insertMatch p.1 p.2 acc) := rfl
    rw [hstep, ih, mem_keys_insertMatch]
    simp only [List.map_cons, List.mem_cons]
    tauto

theorem lookupAssoc_of_mem_nodup (d : Nat) (ms : List Match) :
    ∀ acc : List (Nat × List Match), (acc.map Prod.fst).Nodup →
      (d, ms) ∈ acc → lookupAssoc d acc = some ms := by
  intro acc
  induction acc with
  | nil => intro _ h; simp at h
  | cons kv rest ih =>
    obtain ⟨k, v⟩ := kv
    intro hnd hmem
    simp only [List.map_cons, List.nodup_cons] at hnd
    rcases List.mem_cons.mp hmem with heq | hmem
    · injection heq with h1 h2
      subst h1
      subst h2
      simp [lookupAssoc]
    · have hkd : ¬ k = d := by
        intro hkd
        subst hkd
        exact hnd.1 (List.mem_map.mpr ⟨(k, ms), hmem, rfl⟩)
      simp [lookupAssoc, hkd, ih hnd.2 hmem]

/-- C2: collection drains the whole stream into one document per
distinct id — ids are unique, an id appears exactly when it occurs in
the stream, and each assembled document's match list is (up to the
assembler's sort) exactly the one-match-per-occurrence list built from
the stream, whose fields come from the occurrence and the automaton
evaluation as in `evalMatches`/`mkMatch`. -/
theorem claim_C2 (automatons : List Automaton) (stream : List StreamEntry)
    (m : List (Nat × List Match))
    (h : collectMatches automatons stream = some m) :
    ∃ ps, streamPairs automatons stream = some ps
      ∧ ((assemble m).map Document.id).Nodup
      ∧ (∀ d, d ∈ (assemble m).map Document.id ↔ d ∈ ps.map Prod.fst)
      ∧ ∀ doc ∈ assemble m, List.Perm doc.matchList (filterPairs doc.id ps) := by
  rw [collectMatches] at h
  cases hps : streamPairs automatons stream with
  | none => rw [hps] at h; simp at h
  | some ps =>
    rw [hps] at h
    have hm : m = collectPairs ps [] := by simpa using h.symm
    subst hm
    have hkeys : (assemble (collectPairs ps [])).map Document.id
        = (collectPairs ps []).map Prod.fst := by
      simp [assemble, List.map_map, Function.comp]
    have hnd : ((collectPairs ps []).map Prod.fst).Nodup :=
      nodup_keys_collectPairs ps [] (by simp)
    refine ⟨ps, rfl, ?_, ?_, ?_⟩
    · rw [hkeys]; exact hnd
    · intro d
      rw [hkeys, mem_keys_collectPairs]
      simp
    · intro doc hdoc
      simp only [assemble, List.mem_map] at hdoc
      obtain ⟨p, hp, rfl⟩ := hdoc
      have hlook : lookupAssoc p.1 (collectPairs ps []) = some p.2 :=
        lookupAssoc_of_mem_nodup p.1 p.2 (collectPairs ps []) hnd hp
      rw [lookupAssoc_collectPairs p.1 ps []] at hlook
      simp only [lookupAssoc, combineOpt] at hlook
      by_cases hemp : (filterPairs p.1 ps).isEmpty
      · rw [if_pos hemp] at hlook; exact absurd hlook (by simp)
      · rw [if_neg hemp] at hlook
        have hp2 : p.2 = filterPairs p.1 ps := by
          have := Option.some.inj hlook
          exact this.symm
        show List.Perm (sortCmp matchLe p.2) (filterPairs p.1 ps)
        rw [← hp2]
        exact perm_sortCmp matchLe p.2

/-- C2 witness: on the example one-entry stream the collector produces
the single document 7 with the single match of its one occurrence. -/
theorem claim_C2_witness :
    ∃ ps, streamPairs [exAuto] exStream = some ps
      ∧ ((assemble [(7, [mkMatch 0 0 false exDocIndex])]).map Document.id).Nodup
      ∧ (∀ d, d ∈ (assemble [(7, [mkMatch 0 0 false exDocIndex])]).map Document.id
            ↔ d ∈ ps.map Prod.fst)
      ∧ ∀ doc ∈ assemble [(7, [mkMatch 0 0 false exDocIndex])],
          List.Perm doc.matchList (filterPairs doc.id ps) :=
  claim_C2 [exAuto] exStream [(7, [mkMatch 0 0 false exDocIndex])] (by decide)

theorem drop_append_len {α : Type} (l₁ l₂ : List α) (n k : Nat)
    (h : l₁.length = n) : (l₁ ++ l₂).drop (n + k) = l₂.drop k := by
  subst h
  exact List.drop_append k

/-- Every slice handed to `sort_unstable_by` during a pass belongs to a
group whose cumulative interval contains `range.start`. -/
theorem sortCalls_contain (c : Criterion) (r : Rng) :
    ∀ (lens : List Nat) (pos : Nat) (docs : List Document),
      ∀ l ∈ (applyCriterion c r pos lens docs).2.2,
        ∃ j, rngContains (spanAt pos lens j) r.start = true := by
  intro lens
  induction lens with
  | nil => intro pos docs l hl; simp [applyCriterion_nil] at hl
  | cons len rest ih =>
    intro pos docs l hl
    by_cases hc : rngContains ⟨pos, pos + len⟩ r.start = true
    · by_cases hb : pos + len ≥ r.stop
      · rw [applyCriterion_cons_last c r pos len rest docs hc hb] at hl
        simp only [List.mem_singleton] at hl
        exact ⟨0, by simpa [spanAt] using hc⟩
      · rw [applyCriterion_cons_sort c r pos len rest docs hc hb] at hl
        rcases List.mem_cons.mp hl with rfl | hl
        · exact ⟨0, by simpa [spanAt] using hc⟩
        · obtain ⟨j, hj⟩ := ih (pos + len) (docs.drop len) l hl
          exact ⟨j + 1, by simpa [spanAt, Nat.add_assoc] using hj⟩
    · rw [applyCriterion_cons_out c r pos len rest docs (by simpa using hc)] at hl
      obtain ⟨j, hj⟩ := ih (pos + len) (docs.drop len) l hl
      exact ⟨j + 1, by simpa [spanAt, Nat.add_assoc] using hj⟩

/-- Frame property of one pass over a nonempty range: the segment of
any group whose cumulative interval does not overlap the range comes
out exactly as it went in. -/
theorem applyCriterion_frame (c : Criterion) (r : Rng) (hne : r.start < r.stop) :
    ∀ (lens : List Nat) (pos : Nat) (docs : List Document) (i : Nat),
      lens.sum ≤ docs.length →
      rngOverlaps (spanAt pos lens i) r = false →
      ((applyCriterion c r pos lens docs).1.drop
          ((lens.take i).sum)).take (lens.getD i 0)
        = (docs.drop ((lens.take i).sum)).take (lens.getD i 0) := by
  intro lens
  induction lens with
  | nil => intro pos docs i _ _; rw [applyCriterion_nil]
  | cons len rest ih =>
    intro pos docs i hsum hnov
    simp only [List.sum_cons] at hsum
    have hseg : (docs.take len).length = len := by
      rw [List.length_take]; omega
    cases i with
    | zero =>
      have h0 : rngOverlaps ⟨pos, pos + len⟩ r = false := by
        simpa [spanAt] using hnov
      have hc : rngContains ⟨pos, pos + len⟩ r.start = false := by
        simp only [rngOverlaps, Bool.and_eq_false_iff,
          decide_eq_false_iff_not] at h0
        simp only [rngContains, Bool.and_eq_false_iff,
          decide_eq_false_iff_not]
        rcases h0 with h0 | h0
        · left; omega
        · right; exact h0
      rw [applyCriterion_cons_out c r pos len rest docs hc]
      simp only [List.take_zero, List.sum_nil, List.drop_zero,
        List.getD_cons_zero]
      rw [List.take_left' hseg]
    | succ i =>
      have hnov' : rngOverlaps (spanAt (pos + len) rest i) r = false := by
        rw [show spanAt (pos + len) rest i = spanAt pos (len :: rest) (i + 1) by
          simp [spanAt, Nat.add_assoc]]
        exact hnov
      have hsum' : rest.sum ≤ (docs.drop len).length := by
        rw [List.length_drop]; omega
      have hk : ((len :: rest).take (i + 1)).sum
          = len + (rest.take i).sum := by simp
      have hg : (len :: rest).getD (i + 1) 0 = rest.getD i 0 :=
        List.getD_cons_succ
      have hrhs : List.drop (len + (rest.take i).sum) docs
          = List.drop ((rest.take i).sum) (docs.drop len) := by
        rw [List.drop_drop]
      by_cases hc : rngContains ⟨pos, pos + len⟩ r.start = true
      · by_cases hb : pos + len ≥ r.stop
        · rw [applyCriterion_cons_last c r pos len rest docs hc hb]
          have hsort : (sortCmp (cmpLe c.evaluate) (docs.take len)).length
              = len := by rw [length_sortCmp]; exact hseg
          rw [hk, hg, drop_append_len _ _ len _ hsort, hrhs]
        · rw [applyCriterion_cons_sort c r pos len rest docs hc hb]
          have hsort : (sortCmp (cmpLe c.evaluate) (docs.take len)).length
              = len := by rw [length_sortCmp]; exact hseg
          rw [hk, hg, drop_append_len _ _ len _ hsort, hrhs]
          exact ih (pos + len) (docs.drop len) i hsum' hnov'
      · rw [applyCriterion_cons_out c r pos len rest docs (by simpa using hc)]
        rw [hk, hg, drop_append_len _ _ len _ hseg, hrhs]
        exact ih (pos + len) (docs.drop len) i hsum' hnov'

/-- C5 counterexample: with the empty requested range `[0, 0)` the
single group's interval `[0, 2)` does not overlap the range, yet the
group is sorted (slice length 2 recorded) and comes out reordered —
because the code tests `current_range.contains(&range.start)`, not
overlap. -/
theorem claim_C5_counterexample :
    rngOverlaps (spanAt 0 [2] 0) ⟨0, 0⟩ = false
    ∧ (applyCriterion exCritId ⟨0, 0⟩ 0 [2] [exD1, exD0]).1 ≠ [exD1, exD0]
    ∧ (applyCriterion exCritId ⟨0, 0⟩ 0 [2] [exD1, exD0]).2.2 = [2] := by
  decide

/-- C5 (amended): for a nonempty range (`start < end`), any group whose
cumulative interval does not overlap the range passes through a
criterion pass with its segment byte-for-byte unchanged, and every
slice that is sorted belongs to a group containing `range.start` (so a
non-overlapping group is never the sorted one).  For an empty range the
property fails, see the counterexample. -/
theorem claim_C5 (c : Criterion) (r : Rng) (pos : Nat) (lens : List Nat)
    (docs : List Document) (i : Nat)
    (hne : r.start < r.stop) (hsum : lens.sum ≤ docs.length)
    (hnov : rngOverlaps (spanAt pos lens i) r = false) :
    (((applyCriterion c r pos lens docs).1.drop
        ((lens.take i).sum)).take (lens.getD i 0)
      = (docs.drop ((lens.take i).sum)).take (lens.getD i 0))
    ∧ ∀ l ∈ (applyCriterion c r pos lens docs).2.2,
        ∃ j, rngContains (spanAt pos lens j) r.start = true :=
  ⟨applyCriterion_frame c r hne lens pos docs i hsum hnov,
   fun l hl => sortCalls_contain c r lens pos docs l hl⟩

/-- C5 witness: two singleton groups over `[exD0, exD1]` and range
`[0, 1)`; the second group `[1, 2)` does not overlap and its segment is
unchanged by the pass. -/
theorem claim_C5_witness :
    ((((applyCriterion exCritId ⟨0, 1⟩ 0 [1, 1] [exD0, exD1]).1.drop
        (([1, 1].take 1).sum)).take ([1, 1].getD 1 0))
      = (([exD0, exD1].drop (([1, 1].take 1).sum)).take ([1, 1].getD 1 0)))
    ∧ ∀ l ∈ (applyCriterion exCritId ⟨0, 1⟩ 0 [1, 1] [exD0, exD1]).2.2,
        ∃ j, rngContains (spanAt 0 [1, 1] j) 0 = true :=
  claim_C5 exCritId ⟨0, 1⟩ 0 [1, 1] [exD0, exD1] 1
    (by decide) (by decide) (by decide)

namespace TaskStore

/-- C10: after `delete_tasks(to_remove)` the pending queue holds exactly
the previously pending ids outside `to_remove` (with multiplicity), and
`peek_pending` returns the least pending id, or `none` exactly when the
queue is empty. -/
theorem claim_C10 (to_remove : List TaskId) (q : PendingQueue) :
    (∀ id, id ∈ delete_tasks to_remove q ↔ (id ∈ q ∧ id ∉ to_remove))
    ∧ (∀ id, (delete_tasks to_remove q).count id
        = if id ∈ to_remove then 0 else q.count id)
    ∧ (peek_pending q = none ↔ q = [])
    ∧ (∀ m, peek_pending q = some m → m ∈ q ∧ ∀ x ∈ q, m ≤ x) := by
  refine ⟨fun id => ?_, fun id => ?_, ?_, fun m hm => ?_⟩
  · simp [delete_tasks, List.mem_filter]
  · by_cases h : id ∈ to_remove
    · rw [if_pos h]
      refine List.count_eq_zero.mpr (fun hc => ?_)
      have := (List.mem_filter.mp hc).2
      simp [h] at this
    · rw [if_neg h]
      exact List.count_filter (by simp [h])
  · exact List.min?_eq_none_iff
  · refine ⟨List.min?_mem (fun a b => min_choice a b) hm, ?_⟩
    exact fun x hx =>
      (List.le_min?_iff (fun a b c => le_min_iff) hm).mp (le_refl m) x hx

/-- C10 witness: deleting id 2 from the queue `[3, 1, 2]` keeps 1 and 3
only, and the peek of `[3, 1, 2]` is its least element 1. -/
theorem claim_C10_witness :
    ((1 : TaskId) ∈ delete_tasks [2] [3, 1, 2] ↔ (1 ∈ [3, 1, 2] ∧ (1 : TaskId) ∉ [2]))
    ∧ ((delete_tasks [2] [3, 1, 2]).count 2
        = if (2 : TaskId) ∈ [2] then 0 else [3, 1, 2].count 2)
    ∧ ((1 : TaskId) ∈ [3, 1, 2] ∧ ∀ x ∈ [3, 1, 2], (1 : TaskId) ≤ x) :=
  ⟨(claim_C10 [2] [3, 1, 2]).1 1,
   (claim_C10 [2] [3, 1, 2]).2.1 2,
   (claim_C10 [2] [3, 1, 2]).2.2.2 1 (by decide)⟩

end TaskStore

end Meili
